import Mathlib

/-!
Shallow embedding of the secure-doc-vault backend (document service,
sharing/authorization engine, filename validation, pagination, token
service) together with proofs of its specified properties.

Conventions of the embedding:
* identifiers (UUIDs) and wall-clock instants are naturals;
* Go byte strings that undergo byte-level surgery (filenames) are `List Nat`
  where each element is one byte; other strings are Lean `String`s;
* the relational store is an explicit record of row lists, SQL `WHERE`
  clauses become `List.find?` / `List.filter` predicates, and
  `QueryRow ... == sql.ErrNoRows` becomes the `none` branch of `find?`;
* fallible service methods return `Except SvcErr`; methods that mutate the
  store return the updated store on success.
-/

/-- Decidable equality of fallible results, so that concrete runs of the
operations can be checked by `decide`. -/
instance exceptDecEq {ε α : Type} [DecidableEq ε] [DecidableEq α] :
    DecidableEq (Except ε α) := fun a b =>
  match a, b with
  | .error e1, .error e2 =>
    if h : e1 = e2 then .isTrue (by rw [h]) else .isFalse (by intro hc; cases hc; exact h rfl)
  | .error _, .ok _ => .isFalse (by intro hc; cases hc)
  | .ok _, .error _ => .isFalse (by intro hc; cases hc)
  | .ok a1, .ok a2 =>
    if h : a1 = a2 then .isTrue (by rw [h]) else .isFalse (by intro hc; cases hc; exact h rfl)

inductive SvcErr where
  | documentNotFound
  | accessDenied
  | shareNotFound
  | userNotFound
  | invalidFilename
  | invalidContentType
  | validationFailed
  deriving DecidableEq, Repr

/-- Row of the `users` table (fields used by the verified operations). -/
structure UserRow where
  id : Nat
  email : String
  name : String
  deriving DecidableEq, Repr

/-- Row of the `documents` table (fields used by the verified operations;
timestamps other than `deleted_at` and the encryption metadata are not
consulted by any verified property and are omitted). -/
structure Document where
  id : Nat
  ownerID : Nat
  name : List Nat
  originalName : List Nat
  size : Int
  mimeType : String
  filePath : String
  deletedAt : Option Nat
  deriving DecidableEq, Repr

/-- Row of the `document_shares` table. -/
structure ShareRow where
  documentID : Nat
  sharedByID : Nat
  sharedWithID : Nat
  permission : String
  expiresAt : Option Nat
  deriving DecidableEq, Repr

/-- The relational store backing the services. -/
structure DB where
  users : List UserRow
  documents : List Document
  shares : List ShareRow
  deriving DecidableEq, Repr

/-- SQL filter `expires_at IS NULL OR expires_at > NOW()` on a share row,
with `now` the wall-clock instant at evaluation. -/
def shareActiveAt (now : Nat) (s : ShareRow) : Bool :=
  match s.expiresAt with
  | none => true
  | some t => now < t

/-- `DocumentService.GetByID`:
`SELECT ... FROM documents WHERE id = $1 AND deleted_at IS NULL`,
`sql.ErrNoRows` mapped to `ErrDocumentNotFound`. -/
def getByID (db : DB) (id : Nat) : Except SvcErr Document :=
  match db.documents.find? (fun d => d.id == id && d.deletedAt.isNone) with
  | none => .error .documentNotFound
  | some doc => .ok doc

/-- `DocumentService.CanAccess`: owner gets `(true, "owner")`; otherwise the
active-share lookup `SELECT permission FROM document_shares WHERE document_id
= $1 AND shared_with_id = $2 AND (expires_at IS NULL OR expires_at > NOW())`
yields `(true, permission)` on a row and `(false, "")` on `ErrNoRows`. -/
def canAccess (db : DB) (now : Nat) (documentID userID : Nat) :
    Except SvcErr (Bool × String) :=
  match getByID db documentID with
  | .error e => .error e
  | .ok doc =>
    if doc.ownerID == userID then .ok (true, "owner")
    else
      match db.shares.find? (fun s =>
          s.documentID == documentID && s.sharedWithID == userID &&
          shareActiveAt now s) with
      | some s => .ok (true, s.permission)
      | none => .ok (false, "")

/-- `DocumentService.GetFilePath`: owner gets the path directly; otherwise a
`COUNT(*)` over active shares for the pair gates access. -/
def getFilePath (db : DB) (now : Nat) (id userID : Nat) : Except SvcErr String :=
  match getByID db id with
  | .error e => .error e
  | .ok doc =>
    if doc.ownerID == userID then .ok doc.filePath
    else
      if (db.shares.filter (fun s =>
          s.documentID == id && s.sharedWithID == userID &&
          shareActiveAt now s)).length == 0 then
        .error .accessDenied
      else .ok doc.filePath

/-- `DocumentService.Rename`: consults `CanAccess` and requires the resulting
permission to be `"owner"` or `"edit"`, then
`UPDATE documents SET name = $1 ... WHERE id = $3`. -/
def renameDoc (db : DB) (now : Nat) (id userID : Nat) (newName : List Nat) :
    Except SvcErr DB :=
  match canAccess db now id userID with
  | .error e => .error e
  | .ok (allowed, permission) =>
    if !allowed || (permission != "owner" && permission != "edit") then
      .error .accessDenied
    else
      .ok { db with documents := db.documents.map (fun d =>
        if d.id == id then { d with name := newName } else d) }

/-- `DocumentService.Delete`: owner-only soft delete
(`UPDATE documents SET deleted_at = $1 WHERE id = $2`) followed by a
best-effort `os.Remove` whose outcome (`fsRemoveFails`) is only logged and
never affects the returned value. -/
def deleteDoc (db : DB) (now : Nat) (id userID : Nat)
    (fsRemoveFails : String → Bool) : Except SvcErr DB :=
  match getByID db id with
  | .error e => .error e
  | .ok doc =>
    if doc.ownerID != userID then .error .accessDenied
    else
      let db1 : DB := { db with documents := db.documents.map (fun d =>
        if d.id == id then { d with deletedAt := some now } else d) }
      let _warnOnly := fsRemoveFails doc.filePath
      .ok db1

/-- The `ON CONFLICT (document_id, shared_with_id) DO UPDATE SET
permission = $4` upsert of `DocumentService.Share`: if a row with the key
exists its permission is overwritten in place, otherwise a fresh row with
`expires_at` NULL is inserted. -/
def upsertShare (shares : List ShareRow) (documentID sharedByID sharedWithID : Nat)
    (permission : String) : List ShareRow :=
  if shares.any (fun s => s.documentID == documentID && s.sharedWithID == sharedWithID) then
    shares.map (fun s =>
      if s.documentID == documentID && s.sharedWithID == sharedWithID then
        { s with permission := permission }
      else s)
  else
    shares ++ [ShareRow.mk documentID sharedByID sharedWithID permission none]

/-- `DocumentService.Share`: owner check via `GetByID`, recipient lookup
`SELECT id FROM users WHERE email = $1` (`ErrNoRows` mapped to
`ErrUserNotFound`), then the share upsert. -/
def shareDoc (db : DB) (documentID ownerID : Nat) (sharedWithEmail permission : String) :
    Except SvcErr DB :=
  match getByID db documentID with
  | .error e => .error e
  | .ok doc =>
    if doc.ownerID != ownerID then .error .accessDenied
    else
      match db.users.find? (fun u => u.email == sharedWithEmail) with
      | none => .error .userNotFound
      | some u =>
        .ok { db with shares := upsertShare db.shares documentID ownerID u.id permission }

/-- `DocumentService.RemoveShare`: owner check via `GetByID`, then
`DELETE FROM document_shares WHERE document_id = $1 AND shared_with_id = $2`
(no expiry condition); zero rows affected maps to `ErrShareNotFound`. -/
def removeShare (db : DB) (documentID ownerID sharedWithID : Nat) :
    Except SvcErr DB :=
  match getByID db documentID with
  | .error e => .error e
  | .ok doc =>
    if doc.ownerID != ownerID then .error .accessDenied
    else
      if (db.shares.filter (fun s =>
          s.documentID == documentID && s.sharedWithID == sharedWithID)).length == 0 then
        .error .shareNotFound
      else
        .ok { db with shares := db.shares.filter (fun s =>
          !(s.documentID == documentID && s.sharedWithID == sharedWithID)) }

/-- `DocumentService.GetByOwner`: pagination clamping followed by a count and
a `LIMIT`/`OFFSET` page over the owner's live documents (the `ORDER BY
created_at DESC` sort key is not modelled; no verified property depends on
row order). -/
def getByOwner (db : DB) (ownerID : Nat) (page perPage : Int) :
    List Document × Nat :=
  let page1 : Int := if page < 1 then 1 else page
  let perPage1 : Int := if perPage < 1 || perPage > 100 then 20 else perPage
  let offset : Int := (page1 - 1) * perPage1
  let rows := db.documents.filter (fun d => d.ownerID == ownerID && d.deletedAt.isNone)
  ((rows.drop offset.toNat).take perPage1.toNat, rows.length)

/-- `DocumentService.GetSharedWithUser`: the same pagination clamping, over
the join of active shares for the user with live documents and their owners
(join realised per share row; the `ORDER BY ds.created_at DESC` sort key is
not modelled). -/
def getSharedWithUser (db : DB) (now : Nat) (userID : Nat) (page perPage : Int) :
    List (Document × String × String) × Nat :=
  let page1 : Int := if page < 1 then 1 else page
  let perPage1 : Int := if perPage < 1 || perPage > 100 then 20 else perPage
  let offset : Int := (page1 - 1) * perPage1
  let rows := db.shares.filterMap (fun s =>
    if s.sharedWithID == userID && shareActiveAt now s then
      match db.documents.find? (fun d => d.id == s.documentID && d.deletedAt.isNone) with
      | none => none
      | some d =>
        match db.users.find? (fun u => u.id == d.ownerID) with
        | none => none
        | some u => some (d, u.name, s.permission)
    else none)
  ((rows.drop offset.toNat).take perPage1.toNat, rows.length)

/-- Bytes of an ASCII string (used to state concrete filename inputs). -/
def bytes (s : String) : List Nat :=
  s.data.map Char.toNat

/-- Go `filepath.Base` on a Unix path, at the byte level: empty path gives
".", trailing slashes are stripped, everything up to the last slash is
dropped, and an all-slash path gives "/". -/
def filepathBase (p : List Nat) : List Nat :=
  if p = [] then [46]
  else
    let p1 := (p.reverse.dropWhile (fun c => c == 47)).reverse
    let p2 := (p1.reverse.takeWhile (fun c => c != 47)).reverse
    if p2 = [] then [47]
    else p2

/-- Go `filepath.Ext` at the byte level: the suffix starting at the final
dot of the final path element, empty if that element has no dot. -/
def filepathExt (p : List Nat) : List Nat :=
  let seg := (p.reverse.takeWhile (fun c => c != 47)).reverse
  let afterDot := seg.reverse.takeWhile (fun c => c != 46)
  if afterDot.length == seg.length then []
  else 46 :: afterDot.reverse

/-- Go `strings.TrimSpace` at the byte level, exact on ASCII input: ASCII
space bytes (HT LF VT FF CR SP) are trimmed from both ends; bytes at or
above 128 are never trimmed (Go would additionally trim the few multi-byte
Unicode space runes, which no verified property involves). -/
def trimSpace (p : List Nat) : List Nat :=
  ((p.dropWhile (fun c => c == 9 || c == 10 || c == 11 || c == 12 || c == 13 || c == 32)).reverse.dropWhile
    (fun c => c == 9 || c == 10 || c == 11 || c == 12 || c == 13 || c == 32)).reverse

/-- The scrubbing pipeline of `SanitizeFilename`: `filepath.Base`, removal
of any remaining slash (47), backslash (92) and null (0) bytes, then the
whitespace trim. -/
def scrubFilename (filename : List Nat) : List Nat :=
  trimSpace ((((filepathBase filename).filter (fun c => c != 47)).filter
    (fun c => c != 92)).filter (fun c => c != 0))

/-- `utils.SanitizeFilename`: reject empty input; take the path base; strip
remaining slashes, backslashes and null bytes; trim whitespace; reject a
result that collapsed to "", "." or ".."; cap the length at 255 bytes
keeping the extension (rejecting when the extension alone leaves no room
for a single base byte). -/
def sanitizeFilename (filename : List Nat) : Except SvcErr (List Nat) :=
  if filename = [] then .error .invalidFilename
  else
    let f5 := scrubFilename filename
    if f5 = [] || f5 = [46] || f5 = [46, 46] then .error .invalidFilename
    else if f5.length > 255 then
      let ext := filepathExt f5
      let maxBase : Int := 255 - ext.length
      if maxBase < 1 then .error .invalidFilename
      else .ok (f5.take maxBase.toNat ++ ext)
    else .ok f5

/-- `utils.AllowedMIMETypes`, the content-type allow-list. -/
def allowedMIMETypes : List String :=
  ["application/pdf", "application/msword",
   "application/vnd.openxmlformats-officedocument.wordprocessingml.document",
   "application/vnd.ms-excel",
   "application/vnd.openxmlformats-officedocument.spreadsheetml.sheet",
   "application/vnd.ms-powerpoint",
   "application/vnd.openxmlformats-officedocument.presentationml.presentation",
   "text/plain", "text/csv", "text/markdown", "application/json",
   "application/xml", "text/xml",
   "image/jpeg", "image/png", "image/gif", "image/webp", "image/svg+xml",
   "application/zip", "application/x-zip-compressed", "application/gzip",
   "application/x-tar"]

/-- Go `unicode.IsSpace` restricted to the ASCII characters occurring in
content-type strings (used by the `strings.TrimSpace` step of
`ValidateContentType`, which operates on `String`s). -/
def charIsSpace (c : Char) : Bool :=
  c == ' ' || c == '\t' || c == '\n' || c == '\x0b' || c == '\x0c' || c == '\r'

/-- `utils.ValidateContentType`: drop any parameter after ";", lower-case
(Go `strings.ToLower` coincides with `Char.toLower` on ASCII, and every
listed type is ASCII), trim whitespace, and test allow-list membership. -/
def validateContentType (contentType : String) : Except SvcErr Unit :=
  let ct0 := contentType.data.takeWhile (fun c => c != ';')
  let ct1 := ct0.map Char.toLower
  let ct2 := ((ct1.dropWhile charIsSpace).reverse.dropWhile charIsSpace).reverse
  if allowedMIMETypes.contains (String.mk ct2) then .ok ()
  else .error .invalidContentType

/-- Go `filepath.Join` of the upload directory with a generated identifier
(the subsequent `Clean` normalisation involves no caller-supplied data and
is not modelled). -/
def joinPath (dir elem : String) : String :=
  dir ++ "/" ++ elem

/-- `DocumentService.Create`: content-type validation, sanitisation of the
original filename and (when non-empty) the display name, then a document
whose `FilePath` is the upload directory joined with the freshly generated
identifier `freshID` (never caller input), appended to the store. -/
def createDoc (db : DB) (freshID : Nat) (uploadDir : String) (ownerID : Nat)
    (name originalName : List Nat) (mimeType : String) (size : Int) :
    Except SvcErr (DB × Document) :=
  match validateContentType mimeType with
  | .error e => .error e
  | .ok _ =>
    match sanitizeFilename originalName with
    | .error e => .error e
    | .ok sanitizedOriginalName =>
      match (if name != [] then sanitizeFilename name else .ok sanitizedOriginalName :
          Except SvcErr (List Nat)) with
      | .error e => .error e
      | .ok sanitizedName =>
        let doc : Document :=
          { id := freshID, ownerID := ownerID, name := sanitizedName,
            originalName := sanitizedOriginalName, size := size,
            mimeType := mimeType,
            filePath := joinPath uploadDir (toString freshID),
            deletedAt := none }
        .ok ({ db with documents := db.documents ++ [doc] }, doc)

/-- States of the store reachable from the empty store through the
operations that touch it: user registration (`UserService.Create`'s
`INSERT INTO users`), document creation, sharing, share removal, deletion
and renaming. Only `shareDoc` and `removeShare` ever write the
`document_shares` table. -/
inductive Reach : DB → Prop where
  | init : Reach { users := [], documents := [], shares := [] }
  | registerUser (db : DB) (u : UserRow) :
      Reach db → Reach { db with users := db.users ++ [u] }
  | create (db db' : DB) (freshID : Nat) (uploadDir : String) (ownerID : Nat)
      (name originalName : List Nat) (mimeType : String) (size : Int) (doc : Document) :
      Reach db →
      createDoc db freshID uploadDir ownerID name originalName mimeType size = .ok (db', doc) →
      Reach db'
  | share (db db' : DB) (documentID ownerID : Nat) (email permission : String) :
      Reach db → shareDoc db documentID ownerID email permission = .ok db' → Reach db'
  | unshare (db db' : DB) (documentID ownerID sharedWithID : Nat) :
      Reach db → removeShare db documentID ownerID sharedWithID = .ok db' → Reach db'
  | del (db db' : DB) (now : Nat) (id userID : Nat) (f : String → Bool) :
      Reach db → deleteDoc db now id userID f = .ok db' → Reach db'
  | ren (db db' : DB) (now : Nat) (id userID : Nat) (newName : List Nat) :
      Reach db → renameDoc db now id userID newName = .ok db' → Reach db'

/-- Failure kinds of the token service, distinguishable to callers. -/
inductive AuthErr where
  | invalidToken
  | expiredToken
  deriving DecidableEq, Repr

/-- Signing algorithms relevant to verification: the expected HMAC-SHA256
and the rejected unsigned ("none") class. -/
inductive SigAlg where
  | hs256
  | noSig
  deriving DecidableEq, Repr

/-- Claims carried by a token: identity plus the validity window. -/
structure TokenClaims where
  userID : Nat
  email : String
  issuedAt : Nat
  notBefore : Nat
  expiresAt : Nat
  deriving DecidableEq, Repr

/-- Modelled from the spec: the Token Service implementation (the auth
middleware's token type) is not among the provided sources, only its tests.
Per spec 4.2 a token is a signed object carrying claims; the symmetric
signature is modelled symbolically by recording which secret (if any)
produced it, so that verification under a different secret fails. -/
structure SignedToken where
  alg : SigAlg
  claims : TokenClaims
  secretUsed : Option String
  deriving DecidableEq, Repr

/-- The fixed 24-hour validity window, in seconds. -/
def tokenValidity : Nat := 24 * 60 * 60

/-- Modelled from the spec: `GenerateToken` (`Issue(userID, email)`) is not
among the provided sources. Per spec 4.2 it produces an HS256-signed token
encoding userID, email, issuedAt, notBefore and expiresAt = issuedAt + 24h
under the service's configured secret. -/
def generateToken (secret : String) (now : Nat) (userID : Nat) (email : String) :
    SignedToken :=
  { alg := .hs256,
    claims := { userID := userID, email := email, issuedAt := now,
                notBefore := now, expiresAt := now + tokenValidity },
    secretUsed := some secret }

/-- Modelled from the spec: `ValidateToken` (`Verify(token)`) is not among
the provided sources. Per spec 4.2 it fails with `invalidToken` on a
missing or malformed token (here `none`), on any algorithm other than the
expected one (explicitly rejecting the unsigned class), and on a signature
made with a different secret; it fails with `expiredToken` exactly when the
token is otherwise valid but `now > expiresAt` (no leeway); otherwise it
returns the embedded claims. -/
def validateToken (secret : String) (now : Nat) (token : Option SignedToken) :
    Except AuthErr TokenClaims :=
  match token with
  | none => .error .invalidToken
  | some t =>
    if t.alg != .hs256 then .error .invalidToken
    else if t.secretUsed != some secret then .error .invalidToken
    else if t.claims.expiresAt < now then .error .expiredToken
    else .ok t.claims

/-- Validation of the `permission` field of `models.ShareRequest` as
declared by its binding tag `binding:"required,oneof=view edit"`: the value
must be exactly "view" or "edit". (The email field's `required,email`
format check is not consulted by any verified property and is not
modelled.) -/
def shareRequestValid (permission : String) : Bool :=
  permission == "view" || permission == "edit"

/-- `DocumentHandler.ShareDocument`, the share endpoint: it binds the
request body to a `ShareRequest` with `ShouldBindJSON`, whose binding
validation rejects any permission outside the "view"/"edit" enum as a
validation error before `DocumentService.Share` is invoked — so on a bad
permission nothing is created or modified; otherwise it delegates to the
service. The surrounding identity extraction, document-id parsing and the
per-kind HTTP status mapping of service errors return each service error
unchanged here. -/
def shareEndpoint (db : DB) (documentID ownerID : Nat) (email permission : String) :
    Except SvcErr DB :=
  if !shareRequestValid permission then .error .validationFailed
  else shareDoc db documentID ownerID email permission

/-- Keys on which the share upsert and the `UNIQUE(document_id,
shared_with_id)` constraint operate. -/
def shareKey (s : ShareRow) : Nat × Nat :=
  (s.documentID, s.sharedWithID)

/-- At most one share row per (document, recipient) pair. -/
def uniqueShareKeys (l : List ShareRow) : Prop :=
  l.Pairwise (fun a b => shareKey a ≠ shareKey b)

/-- Store for the pagination witnesses: two live documents owned by
user 7. -/
def docP1 : Document :=
  { id := 21, ownerID := 7, name := bytes "one", originalName := bytes "one.txt",
    size := 1, mimeType := "text/plain", filePath := "uploads/21", deletedAt := none }

def docP2 : Document :=
  { id := 22, ownerID := 7, name := bytes "two", originalName := bytes "two.txt",
    size := 1, mimeType := "text/plain", filePath := "uploads/22", deletedAt := none }

def dbPag : DB := { users := [], documents := [docP1, docP2], shares := [] }

/-- Concrete store used by witnesses: two users, one live document owned by
user 1, one unexpired view share to user 2. -/
def aliceRow : UserRow := { id := 1, email := "alice@example.com", name := "Alice" }

def bobRow : UserRow := { id := 2, email := "bob@example.com", name := "Bob" }

def docA : Document :=
  { id := 10, ownerID := 1, name := bytes "report", originalName := bytes "report.pdf",
    size := 4, mimeType := "application/pdf", filePath := "uploads/10", deletedAt := none }

def shareAB : ShareRow :=
  { documentID := 10, sharedByID := 1, sharedWithID := 2, permission := "view",
    expiresAt := none }

def dbEx : DB := { users := [aliceRow, bobRow], documents := [docA], shares := [shareAB] }

/-- Intermediate stores of the re-share witness scenario: both users
registered but nothing uploaded yet, and the final store after re-sharing
at `edit`. -/
def dbU2 : DB := { users := [aliceRow, bobRow], documents := [], shares := [] }

def dbReshared : DB :=
  { users := [aliceRow, bobRow], documents := [docA],
    shares := [ShareRow.mk 10 1 2 "edit" none] }

/-- Store for witnesses: the document of `dbEx` soft-deleted at instant 50,
its unexpired share row still present. -/
def docDel : Document := { docA with deletedAt := some 50 }

def dbDel : DB := { users := [aliceRow, bobRow], documents := [docDel], shares := [shareAB] }

/-- Store for witnesses: as `dbEx` but the share to user 2 is `edit`-level
and expires at instant 200. -/
def shareEditAB : ShareRow :=
  { documentID := 10, sharedByID := 1, sharedWithID := 2, permission := "edit",
    expiresAt := some 200 }

def dbEdit : DB := { users := [aliceRow, bobRow], documents := [docA], shares := [shareEditAB] }

/-- Result of the owner's delete on the witness store. -/
def dbExAfterDelete : DB :=
  { dbEx with documents := [{ docA with deletedAt := some 100 }] }

/-- Witness store for the expired-share removal: the only share row for
(10, 2) expired at instant 50. -/
def shareExpiredAB : ShareRow :=
  { documentID := 10, sharedByID := 1, sharedWithID := 2, permission := "view",
    expiresAt := some 50 }

def dbExpired : DB :=
  { users := [aliceRow, bobRow], documents := [docA], shares := [shareExpiredAB] }

/-- The witness store after the owner removes the share of `dbEx`. -/
def dbExNoShares : DB := { users := [aliceRow, bobRow], documents := [docA], shares := [] }

theorem find?_eq_some_of_key_unique {α : Type} (p : α → Bool) (key : α → Nat × Nat)
    (l : List α) (hu : l.Pairwise (fun a b => key a ≠ key b)) (s : α)
    (hmem : s ∈ l) (hps : p s = true) (hkey : ∀ x, p x = true → key x = key s) :
    l.find? p = some s := by
  induction l with
  | nil => cases hmem
  | cons a t ih =>
    rcases List.pairwise_cons.mp hu with ⟨hat, ht⟩
    by_cases hpa : p a = true
    · have has : a = s := by
        by_contra hne
        have hst : s ∈ t := by
          rcases List.mem_cons.mp hmem with h | h
          · exact absurd h.symm hne
          · exact h
        exact hat s hst (hkey a hpa)
      rw [List.find?_cons_of_pos _ hpa, has]
    · have hst : s ∈ t := by
        rcases List.mem_cons.mp hmem with h | h
        · exact absurd (h ▸ hps) hpa
        · exact h
      rw [List.find?_cons_of_neg _ hpa]
      exact ih ht hst

theorem find?_append_middle_of_neg {α : Type} (p : α → Bool) (pre post : List α)
    (s : α) (hs : p s = false) :
    (pre ++ s :: post).find? p = (pre ++ post).find? p := by
  induction pre with
  | nil =>
    simp only [List.nil_append]
    rw [List.find?_cons_of_neg]
    simp [hs]
  | cons a t ih =>
    by_cases hpa : p a = true
    · simp only [List.cons_append, List.find?_cons_of_pos _ hpa]
    · simp only [List.cons_append, List.find?_cons_of_neg _ hpa]
      exact ih

theorem getByID_error_of_all_deleted (db : DB) (d : Nat)
    (h : ∀ doc ∈ db.documents, doc.id = d → doc.deletedAt ≠ none) :
    getByID db d = .error .documentNotFound := by
  unfold getByID
  have hnone : db.documents.find? (fun x => x.id == d && x.deletedAt.isNone) = none := by
    apply List.find?_eq_none.mpr
    intro x hx
    simp only [Bool.and_eq_true, beq_iff_eq, Option.isNone_iff_eq_none, not_and]
    exact fun h1 h2 => h x hx h1 h2
  rw [hnone]

theorem canAccess_of_owner (db : DB) (now d u : Nat) (doc : Document)
    (hdoc : getByID db d = .ok doc) (hown : doc.ownerID = u) :
    canAccess db now d u = .ok (true, "owner") := by
  simp [canAccess, hdoc, hown]

theorem canAccess_of_share (db : DB) (now d u : Nat) (doc : Document)
    (hdoc : getByID db d = .ok doc) (hown : doc.ownerID ≠ u)
    (huniq : uniqueShareKeys db.shares) (s : ShareRow) (hmem : s ∈ db.shares)
    (hd : s.documentID = d) (hw : s.sharedWithID = u)
    (hact : shareActiveAt now s = true) :
    canAccess db now d u = .ok (true, s.permission) := by
  have hfind : db.shares.find? (fun s =>
      s.documentID == d && s.sharedWithID == u && shareActiveAt now s) = some s := by
    apply find?_eq_some_of_key_unique _ shareKey _ huniq s hmem
    · simp [hd, hw, hact]
    · intro x hx
      simp only [Bool.and_eq_true, beq_iff_eq] at hx
      simp [shareKey, hx.1.1, hx.1.2, hd, hw]
  simp [canAccess, hdoc, hown, hfind]

/-- C1: `CanAccess` returns `(true, "owner")` for the document's owner;
for any other user it returns `(true, p)` when an active share with
permission `p` exists for the pair and `(false, "")` when no matching share
is active; and a share whose expiry lies in the past contributes nothing:
removing it from the store leaves `canAccess` unchanged. -/

theorem canAccess_spec (db : DB) (now : Nat) (d u : Nat) (doc : Document)
    (hdoc : getByID db d = .ok doc) (huniq : uniqueShareKeys db.shares) :
    (doc.ownerID = u → canAccess db now d u = .ok (true, "owner")) ∧
    (doc.ownerID ≠ u →
      ∀ s ∈ db.shares, s.documentID = d → s.sharedWithID = u →
        shareActiveAt now s = true →
        canAccess db now d u = .ok (true, s.permission)) ∧
    (doc.ownerID ≠ u →
      (∀ s ∈ db.shares, s.documentID = d → s.sharedWithID = u →
        shareActiveAt now s = false) →
      canAccess db now d u = .ok (false, "")) ∧
    (∀ pre s post, db.shares = pre ++ s :: post →
      (∃ t, s.expiresAt = some t ∧ t < now) →
      canAccess db now d u = canAccess { db with shares := pre ++ post } now d u) := by
  refine ⟨?_, ?_, ?_, ?_⟩
  · intro hown
    simp [canAccess, hdoc, hown]
  · intro hown s hmem hd hw hact
    have hfind : db.shares.find? (fun s =>
        s.documentID == d && s.sharedWithID == u && shareActiveAt now s) = some s := by
      apply find?_eq_some_of_key_unique _ shareKey _ huniq s hmem
      · simp [hd, hw, hact]
      · intro x hx
        simp only [Bool.and_eq_true, beq_iff_eq] at hx
        simp [shareKey, hx.1.1, hx.1.2, hd, hw]
    simp [canAccess, hdoc, hown, hfind]
  · intro hown hall
    have hfind : db.shares.find? (fun s =>
        s.documentID == d && s.sharedWithID == u && shareActiveAt now s) = none := by
      apply List.find?_eq_none.mpr
      intro x hx
      simp only [Bool.and_eq_true, beq_iff_eq, not_and]
      intro hxd hxw
      rw [hall x hx hxd.1 hxd.2] at hxw
      exact Bool.false_ne_true hxw
    simp [canAccess, hdoc, hown, hfind]
  · rintro pre s post hsplit ⟨t, het, htn⟩
    have hps : (s.documentID == d && s.sharedWithID == u && shareActiveAt now s) = false := by
      have hna : shareActiveAt now s = false := by
        simp only [shareActiveAt, het, decide_eq_false_iff_not]
        omega
      simp [hna]
    have hdoc2 : getByID { db with shares := pre ++ post } d = .ok doc := hdoc
    have hfind : db.shares.find? (fun s =>
        s.documentID == d && s.sharedWithID == u && shareActiveAt now s) =
        (pre ++ post).find? (fun s =>
        s.documentID == d && s.sharedWithID == u && shareActiveAt now s) := by
      rw [hsplit]
      exact find?_append_middle_of_neg _ _ _ _ hps
    simp [canAccess, hdoc, hdoc2, hfind]

theorem canAccess_spec_witness :
    canAccess dbEx 100 10 2 = .ok (true, "view") := by
  have h := canAccess_spec dbEx 100 10 2 docA rfl (by simp [uniqueShareKeys, dbEx])
  exact h.2.1 (by decide) shareAB (by decide) rfl rfl rfl

/-- C10: once every row of a document id is soft-deleted (or the id is
absent altogether), every operation that begins with the `GetByID` lookup —
`CanAccess`, `GetFilePath`, `Rename`, `Share`, `RemoveShare`, `Delete` —
fails with `documentNotFound` for every user, owner and holders of
unexpired share rows included: shares on a soft-deleted document grant no
access whatsoever. -/

theorem softDeleted_blocks_all (db : DB) (now d : Nat)
    (h : ∀ doc ∈ db.documents, doc.id = d → doc.deletedAt ≠ none) (u : Nat) :
    getByID db d = .error .documentNotFound ∧
    canAccess db now d u = .error .documentNotFound ∧
    getFilePath db now d u = .error .documentNotFound ∧
    (∀ n, renameDoc db now d u n = .error .documentNotFound) ∧
    (∀ e p, shareDoc db d u e p = .error .documentNotFound) ∧
    (∀ w, removeShare db d u w = .error .documentNotFound) ∧
    (∀ f, deleteDoc db now d u f = .error .documentNotFound) := by
  have hg := getByID_error_of_all_deleted db d h
  have hca : canAccess db now d u = .error .documentNotFound := by
    simp [canAccess, hg]
  refine ⟨hg, hca, ?_, ?_, ?_, ?_, ?_⟩
  · simp [getFilePath, hg]
  · intro n
    simp [renameDoc, hca]
  · intro e p
    simp [shareDoc, hg]
  · intro w
    simp [removeShare, hg]
  · intro f
    simp [deleteDoc, hg]

theorem softDeleted_blocks_all_witness :
    canAccess dbDel 100 10 1 = .error .documentNotFound ∧
    getFilePath dbDel 100 10 2 = .error .documentNotFound := by
  have h1 := softDeleted_blocks_all dbDel 100 10 (by decide) 1
  have h2 := softDeleted_blocks_all dbDel 100 10 (by decide) 2
  exact ⟨h1.2.1, h2.2.2.1⟩

theorem mem_map_update_name (l : List Document) (d : Nat) (n : List Nat) :
    ∀ x ∈ l.map (fun y => if y.id == d then { y with name := n } else y),
      x.id = d → x.name = n := by
  intro x hx hxid
  simp only [List.mem_map] at hx
  obtain ⟨y, hy, hyx⟩ := hx
  by_cases hyd : y.id = d
  · rw [← hyx]
    simp [hyd]
  · rw [← hyx] at hxid
    simp [hyd] at hxid

/-- C4: `Rename` fails with `accessDenied` for a caller who is not the
owner and whose every active share on the document is `view`-level (which
covers both a `view`-only grantee and a caller with no access at all), and
succeeds — updating the display name — for the owner and for a holder of an
active `edit` share. -/

theorem rename_access (db : DB) (now d u : Nat) (n : List Nat) (doc : Document)
    (hdoc : getByID db d = .ok doc) (huniq : uniqueShareKeys db.shares) :
    (doc.ownerID ≠ u →
      (∀ s ∈ db.shares, s.documentID = d → s.sharedWithID = u →
        shareActiveAt now s = true → s.permission = "view") →
      renameDoc db now d u n = .error .accessDenied) ∧
    (doc.ownerID = u →
      renameDoc db now d u n = .ok { db with documents := db.documents.map (fun x =>
        if x.id == d then { x with name := n } else x) } ∧
      ∀ x ∈ (db.documents.map (fun x =>
        if x.id == d then { x with name := n } else x)), x.id = d → x.name = n) ∧
    ((∃ s ∈ db.shares, s.documentID = d ∧ s.sharedWithID = u ∧
        shareActiveAt now s = true ∧ s.permission = "edit") →
      renameDoc db now d u n = .ok { db with documents := db.documents.map (fun x =>
        if x.id == d then { x with name := n } else x) } ∧
      ∀ x ∈ (db.documents.map (fun x =>
        if x.id == d then { x with name := n } else x)), x.id = d → x.name = n) := by
  refine ⟨?_, ?_, ?_⟩
  · intro hown hall
    cases hfind : db.shares.find? (fun s =>
        s.documentID == d && s.sharedWithID == u && shareActiveAt now s) with
    | none =>
      simp [renameDoc, canAccess, hdoc, hown, hfind]
    | some s =>
      have hps := List.find?_some hfind
      have hmem := List.mem_of_find?_eq_some hfind
      simp only [Bool.and_eq_true, beq_iff_eq] at hps
      have hview := hall s hmem hps.1.1 hps.1.2 hps.2
      simp [renameDoc, canAccess, hdoc, hown, hfind, hview]
  · intro hown
    have hca := canAccess_of_owner db now d u doc hdoc hown
    exact ⟨by simp [renameDoc, hca], mem_map_update_name db.documents d n⟩
  · rintro ⟨s, hmem, hd, hw, hact, hperm⟩
    by_cases hown : doc.ownerID = u
    · have hca := canAccess_of_owner db now d u doc hdoc hown
      exact ⟨by simp [renameDoc, hca], mem_map_update_name db.documents d n⟩
    · have hca := canAccess_of_share db now d u doc hdoc hown huniq s hmem hd hw hact
      rw [hperm] at hca
      exact ⟨by simp [renameDoc, hca], mem_map_update_name db.documents d n⟩

theorem rename_access_witness :
    renameDoc dbEx 100 10 2 (bytes "new") = .error .accessDenied ∧
    ∃ db', renameDoc dbEdit 100 10 2 (bytes "new") = .ok db' ∧
      ∀ x ∈ db'.documents, x.id = 10 → x.name = bytes "new" := by
  have h1 := rename_access dbEx 100 10 2 (bytes "new") docA rfl
    (by simp [uniqueShareKeys, dbEx])
  have h2 := rename_access dbEdit 100 10 2 (bytes "new") docA rfl
    (by simp [uniqueShareKeys, dbEdit])
  have h2e := h2.2.2 ⟨shareEditAB, by decide, rfl, rfl, rfl, rfl⟩
  exact ⟨h1.1 (by decide) (by decide), _, h2e.1, h2e.2⟩

theorem mem_map_softdelete (l : List Document) (d now : Nat) :
    ∀ x ∈ l.map (fun y => if y.id == d then { y with deletedAt := some now } else y),
      x.id = d → x.deletedAt ≠ none := by
  intro x hx hxid
  simp only [List.mem_map] at hx
  obtain ⟨y, hy, hyx⟩ := hx
  by_cases hyd : y.id = d
  · rw [← hyx]
    simp [hyd]
  · rw [← hyx] at hxid
    simp [hyd] at hxid

/-- C5: `Delete` fails with `documentNotFound` when the id is absent or
soft-deleted; fails with `accessDenied` for every non-owner, returning no
new store, the document still fully accessible to its owner; on success the
soft-delete mark makes every subsequent `GetByID` of the id fail with
`documentNotFound`; and the returned value never depends on the outcome of
the best-effort physical content removal, which is only warned about. -/

theorem delete_spec (db : DB) (now d u : Nat) :
    ((∀ doc ∈ db.documents, doc.id = d → doc.deletedAt ≠ none) →
      ∀ f, deleteDoc db now d u f = .error .documentNotFound) ∧
    (∀ doc, getByID db d = .ok doc → doc.ownerID ≠ u →
      (∀ f, deleteDoc db now d u f = .error .accessDenied) ∧
      canAccess db now d doc.ownerID = .ok (true, "owner")) ∧
    (∀ doc f db', getByID db d = .ok doc → deleteDoc db now d u f = .ok db' →
      getByID db' d = .error .documentNotFound) ∧
    (∀ f g, deleteDoc db now d u f = deleteDoc db now d u g) := by
  refine ⟨?_, ?_, ?_, ?_⟩
  · intro h f
    simp [deleteDoc, getByID_error_of_all_deleted db d h]
  · intro doc hdoc hown
    exact ⟨fun f => by simp [deleteDoc, hdoc, hown],
      canAccess_of_owner db now d doc.ownerID doc hdoc rfl⟩
  · intro doc f db' hdoc hdel
    simp only [deleteDoc, hdoc] at hdel
    split at hdel
    · simp at hdel
    · cases hdel
      exact getByID_error_of_all_deleted _ d (mem_map_softdelete db.documents d now)
  · intro f g
    rfl

theorem delete_spec_witness :
    (∀ f, deleteDoc dbEx 100 10 2 f = .error .accessDenied) ∧
    deleteDoc dbEx 100 10 1 (fun _ => true) = .ok dbExAfterDelete ∧
    getByID dbExAfterDelete 10 = .error .documentNotFound := by
  have h2 := (delete_spec dbEx 100 10 2).2.1 docA rfl (by decide)
  have hdel : deleteDoc dbEx 100 10 1 (fun _ => true) = .ok dbExAfterDelete := by decide
  have h1 := (delete_spec dbEx 100 10 1).2.2.1 docA (fun _ => true) dbExAfterDelete rfl hdel
  exact ⟨h2.1, hdel, h1⟩

/-- C6: `Share` fails with `documentNotFound` when the document is absent
or soft-deleted, with `accessDenied` when the caller is not the owner, and
with `userNotFound` when no user carries the recipient email; and the share
endpoint rejects any permission other than exactly "view" or "edit" as a
validation failure before the service runs, so no share row is created or
modified. -/
theorem share_errors (db : DB) (d o : Nat) (e p : String) :
    ((∀ doc ∈ db.documents, doc.id = d → doc.deletedAt ≠ none) →
      shareDoc db d o e p = .error .documentNotFound) ∧
    (∀ doc, getByID db d = .ok doc → doc.ownerID ≠ o →
      shareDoc db d o e p = .error .accessDenied) ∧
    (∀ doc, getByID db d = .ok doc → doc.ownerID = o →
      (∀ u ∈ db.users, u.email ≠ e) → shareDoc db d o e p = .error .userNotFound) ∧
    (p ≠ "view" → p ≠ "edit" →
      shareEndpoint db d o e p = .error .validationFailed) := by
  refine ⟨?_, ?_, ?_, ?_⟩
  · intro h
    simp [shareDoc, getByID_error_of_all_deleted db d h]
  · intro doc hdoc hown
    simp [shareDoc, hdoc, hown]
  · intro doc hdoc hown hmail
    have hfind : db.users.find? (fun u => u.email == e) = none := by
      apply List.find?_eq_none.mpr
      intro x hx
      simp [hmail x hx]
    simp [shareDoc, hdoc, hown, hfind]
  · intro hp1 hp2
    simp [shareEndpoint, shareRequestValid, hp1, hp2]

theorem share_errors_witness :
    shareDoc dbEx 10 1 "nobody@example.com" "view" = .error .userNotFound ∧
    shareEndpoint dbEx 10 1 "bob@example.com" "admin" = .error .validationFailed := by
  have h1 := (share_errors dbEx 10 1 "nobody@example.com" "view").2.2.1 docA rfl rfl (by decide)
  have h2 := (share_errors dbEx 10 1 "bob@example.com" "admin").2.2.2 (by decide) (by decide)
  exact ⟨h1, h2⟩

/-- C9 counterexample: at evaluation instant 100 the only share row for the
pair (10, 2) is expired, so no matching active share row exists to be
removed; the claim then demands `shareNotFound`, but `RemoveShare` succeeds
and deletes the stale row — its SQL delete carries no expiry condition. -/

theorem removeShare_expired_counterexample :
    (∀ s ∈ dbExpired.shares, s.documentID = 10 → s.sharedWithID = 2 →
      shareActiveAt 100 s = false) ∧
    removeShare dbExpired 10 1 2 = .ok { dbExpired with shares := [] } ∧
    removeShare dbExpired 10 1 2 ≠ .error .shareNotFound := by decide

/-- C9 (amended): `RemoveShare` fails with `documentNotFound` when the
document is absent or soft-deleted and with `accessDenied` when the caller
is not the owner; for the owner it fails with `shareNotFound` exactly when
no share row at all — whether active or expired — matches the (document,
recipient) pair, and otherwise removes every matching row. -/

theorem removeShare_owner_eq (db : DB) (d o w : Nat) (doc : Document)
    (hdoc : getByID db d = .ok doc) (hown : doc.ownerID = o) :
    removeShare db d o w =
      if (db.shares.filter (fun s => s.documentID == d && s.sharedWithID == w)).length = 0
      then .error .shareNotFound
      else .ok { db with shares := db.shares.filter (fun s =>
        !(s.documentID == d && s.sharedWithID == w)) } := by
  simp [removeShare, hdoc, hown]

theorem removeShare_spec (db : DB) (d o w : Nat) :
    ((∀ doc ∈ db.documents, doc.id = d → doc.deletedAt ≠ none) →
      removeShare db d o w = .error .documentNotFound) ∧
    (∀ doc, getByID db d = .ok doc → doc.ownerID ≠ o →
      removeShare db d o w = .error .accessDenied) ∧
    (∀ doc, getByID db d = .ok doc → doc.ownerID = o →
      ((removeShare db d o w = .error .shareNotFound ↔
        ∀ s ∈ db.shares, ¬(s.documentID = d ∧ s.sharedWithID = w)) ∧
      (∀ db', removeShare db d o w = .ok db' →
        db'.shares = db.shares.filter (fun s =>
          !(s.documentID == d && s.sharedWithID == w))))) := by
  refine ⟨?_, ?_, ?_⟩
  · intro h
    simp [removeShare, getByID_error_of_all_deleted db d h]
  · intro doc hdoc hown
    simp [removeShare, hdoc, hown]
  · intro doc hdoc hown
    have hchar := removeShare_owner_eq db d o w doc hdoc hown
    by_cases hlen : (db.shares.filter (fun s =>
        s.documentID == d && s.sharedWithID == w)).length = 0
    · have hfil : db.shares.filter (fun s =>
          s.documentID == d && s.sharedWithID == w) = [] :=
        List.length_eq_zero.mp hlen
      rw [hchar, if_pos hlen]
      refine ⟨⟨fun _ s hs hpair => ?_, fun _ => rfl⟩, fun db' hok => ?_⟩
      · have hnot := List.filter_eq_nil_iff.mp hfil s hs
        simp only [Bool.and_eq_true, beq_iff_eq] at hnot
        exact hnot ⟨hpair.1, hpair.2⟩
      · cases hok
    · rw [hchar, if_neg hlen]
      refine ⟨⟨fun h => ?_, fun hall => ?_⟩, fun db' hok => ?_⟩
      · cases h
      · exfalso
        apply hlen
        rw [List.length_eq_zero]
        apply List.filter_eq_nil_iff.mpr
        intro s hs
        simp only [Bool.and_eq_true, beq_iff_eq, not_and]
        intro h1 h2
        exact hall s hs ⟨h1, h2⟩
      · cases hok
        rfl

theorem removeShare_spec_witness :
    removeShare dbEx 10 2 1 = .error .accessDenied ∧
    removeShare dbEx 10 1 2 = .ok dbExNoShares ∧
    dbExNoShares.shares = dbEx.shares.filter (fun s =>
      !(s.documentID == 10 && s.sharedWithID == 2)) := by
  have h1 := (removeShare_spec dbEx 10 2 1).2.1 docA rfl (by decide)
  have hok : removeShare dbEx 10 1 2 = .ok dbExNoShares := by decide
  have h2 := (removeShare_spec dbEx 10 1 2).2.2 docA rfl rfl
  exact ⟨h1, hok, h2.2 dbExNoShares hok⟩

/-- C2: a token issued by `generateToken` verifies under the same secret
within its 24-hour window to the very claims issued — same userID and
email; once the verification instant passes `expiresAt` verification fails
with `expiredToken`; a token signed under a different secret, or carried
unsigned (the "none" algorithm class), always fails with `invalidToken`;
and the two failure kinds are distinct values, distinguishable to
callers. -/

theorem token_lifecycle (secret : String) (issueAt verifyAt u : Nat) (e : String) :
    (verifyAt ≤ issueAt + tokenValidity →
      validateToken secret verifyAt (some (generateToken secret issueAt u e)) =
        .ok (generateToken secret issueAt u e).claims ∧
      (generateToken secret issueAt u e).claims.userID = u ∧
      (generateToken secret issueAt u e).claims.email = e) ∧
    (issueAt + tokenValidity < verifyAt →
      validateToken secret verifyAt (some (generateToken secret issueAt u e)) =
        .error .expiredToken) ∧
    (∀ secret2, secret2 ≠ secret →
      ∀ t, validateToken secret2 t (some (generateToken secret issueAt u e)) =
        .error .invalidToken) ∧
    (∀ c : TokenClaims, ∀ sec : String, ∀ t : Nat,
      validateToken sec t (some { alg := .noSig, claims := c, secretUsed := none }) =
        .error .invalidToken) ∧
    AuthErr.expiredToken ≠ AuthErr.invalidToken := by
  refine ⟨?_, ?_, ?_, ?_, by decide⟩
  · intro hin
    have hlt : ¬ (issueAt + tokenValidity < verifyAt) := by omega
    exact ⟨by simp [validateToken, generateToken, hlt], rfl, rfl⟩
  · intro hgt
    simp [validateToken, generateToken, hgt]
  · intro secret2 hne t
    have hs : secret ≠ secret2 := fun h => hne h.symm
    simp [validateToken, generateToken, hs]
  · intro c sec t
    rfl

theorem token_lifecycle_witness :
    validateToken "key1" 3600 (some (generateToken "key1" 0 7 "alice@example.com")) =
      .ok (generateToken "key1" 0 7 "alice@example.com").claims ∧
    validateToken "key1" 90000 (some (generateToken "key1" 0 7 "alice@example.com")) =
      .error .expiredToken ∧
    validateToken "key2" 3600 (some (generateToken "key1" 0 7 "alice@example.com")) =
      .error .invalidToken := by
  have h1 := token_lifecycle "key1" 0 3600 7 "alice@example.com"
  have h2 := token_lifecycle "key1" 0 90000 7 "alice@example.com"
  exact ⟨(h1.1 (by decide)).1, h2.2.1 (by decide), h1.2.2.1 "key2" (by decide) 3600⟩

/-- C8 counterexample: page size 1 lies outside the interval (1, 100] that
the claim says is clamped to the default 20, yet the listing does not
treat it as 20: with two stored documents, page size 1 returns a single
row where the claimed clamping would return both. -/

theorem pagination_perPage_one_counterexample :
    ¬ (1 < (1 : Int) ∧ (1 : Int) ≤ 100) ∧
    getByOwner dbPag 7 1 1 ≠ getByOwner dbPag 7 1 20 ∧
    (getByOwner dbPag 7 1 1).1.length = 1 ∧
    (getByOwner dbPag 7 1 20).1.length = 2 := by decide

/-- C8 (amended): both listing calls clamp a page number below 1 to 1 and
clamp a page size outside [1, 100] to the default 20; the calls are total
functions of the store — bad pagination input is never an error. -/

theorem pagination_clamps (db : DB) (now o u : Nat) (page perPage : Int) :
    (page < 1 →
      getByOwner db o page perPage = getByOwner db o 1 perPage ∧
      getSharedWithUser db now u page perPage = getSharedWithUser db now u 1 perPage) ∧
    (perPage < 1 ∨ perPage > 100 →
      getByOwner db o page perPage = getByOwner db o page 20 ∧
      getSharedWithUser db now u page perPage = getSharedWithUser db now u page 20) := by
  constructor
  · intro h
    have h1 : (if page < 1 then (1 : Int) else page) = (if (1 : Int) < 1 then 1 else 1) := by
      simp [h]
    constructor
    · simp only [getByOwner]
      rw [h1]
    · simp only [getSharedWithUser]
      rw [h1]
  · intro h
    have h2 : (if perPage < 1 || perPage > 100 then (20 : Int) else perPage) =
        (if (20 : Int) < 1 || (20 : Int) > 100 then 20 else 20) := by
      rcases h with h | h <;> simp [h]
    constructor
    · simp only [getByOwner]
      rw [h2]
    · simp only [getSharedWithUser]
      rw [h2]

theorem pagination_clamps_witness :
    getByOwner dbPag 7 0 (-5) = getByOwner dbPag 7 1 (-5) ∧
    getByOwner dbPag 7 1 200 = getByOwner dbPag 7 1 20 := by
  have h1 := pagination_clamps dbPag 0 7 7 0 (-5)
  have h2 := pagination_clamps dbPag 0 7 7 1 200
  exact ⟨(h1.1 (by decide)).1, (h2.2 (Or.inr (by decide))).1⟩

theorem mem_trimSpace (l : List Nat) (c : Nat) (h : c ∈ trimSpace l) : c ∈ l := by
  unfold trimSpace at h
  rw [List.mem_reverse] at h
  have h2 := (List.dropWhile_sublist _).subset h
  rw [List.mem_reverse] at h2
  exact (List.dropWhile_sublist _).subset h2

theorem mem_filepathExt (l : List Nat) (c : Nat) (h : c ∈ filepathExt l) :
    c = 46 ∨ c ∈ l := by
  simp only [filepathExt] at h
  split at h
  · cases h
  · rcases List.mem_cons.mp h with h | h
    · exact Or.inl h
    · right
      rw [List.mem_reverse] at h
      have h2 := (List.takeWhile_sublist _).subset h
      rw [List.mem_reverse] at h2
      rw [List.mem_reverse] at h2
      have h3 := (List.takeWhile_sublist _).subset h2
      rw [List.mem_reverse] at h3
      exact h3

theorem mem_scrubFilename (f : List Nat) (c : Nat) (h : c ∈ scrubFilename f) :
    c ≠ 47 ∧ c ≠ 92 ∧ c ≠ 0 := by
  unfold scrubFilename at h
  have h4 := mem_trimSpace _ _ h
  simp only [List.mem_filter, bne_iff_ne, ne_eq] at h4
  exact ⟨h4.1.1.2, h4.1.2, h4.2⟩

set_option maxHeartbeats 1000000 in

theorem sanitizeFilename_ok_cases (f out : List Nat) (h : sanitizeFilename f = .ok out) :
    (out = scrubFilename f ∧ out.length ≤ 255 ∧
      out ≠ [] ∧ out ≠ [46] ∧ out ≠ [46, 46]) ∨
    (out = (scrubFilename f).take (255 - (filepathExt (scrubFilename f)).length) ++
        filepathExt (scrubFilename f) ∧ out.length = 255) := by
  simp only [sanitizeFilename] at h
  split at h
  · cases h
  · split at h
    · cases h
    · split at h
      · split at h
        · cases h
        · right
          rename_i hguard hlen hmax
          cases h
          have htn : ((255 : Int) - (filepathExt (scrubFilename f)).length).toNat =
              255 - (filepathExt (scrubFilename f)).length := by omega
          constructor
          · rw [htn]
          · rw [List.length_append, List.length_take, htn]
            omega
      · left
        rename_i hguard hlen
        cases h
        simp only [Bool.or_eq_true, decide_eq_true_eq, not_or] at hguard
        exact ⟨rfl, by omega, hguard.1.1, hguard.1.2, hguard.2⟩

theorem createDoc_ok_filePath (db : DB) (freshID : Nat) (dir : String) (owner : Nat)
    (n o : List Nat) (m : String) (sz : Int) (r : DB × Document)
    (h : createDoc db freshID dir owner n o m sz = .ok r) :
    r.2.filePath = joinPath dir (toString freshID) := by
  unfold createDoc at h
  split at h
  · cases h
  · split at h
    · cases h
    · split at h
      · cases h
      · cases h
        rfl

set_option maxRecDepth 8192 in

set_option maxHeartbeats 1000000 in

/-- C7: sanitisation strips path separators, backslashes and null bytes
from every accepted filename; no accepted result is empty, "." or ".."
(those collapses are rejected); every accepted result fits in 255 bytes;
"../../../etc/passwd" sanitises to "passwd"; an over-long name is
truncated to 255 bytes with its extension preserved; and the stored file
path of a created document is derived only from the freshly generated
identifier joined to the upload directory, never from caller-supplied
input — two creations differing in every caller-supplied field produce the
same path. -/

theorem sanitize_and_storage (f out : List Nat) (h : sanitizeFilename f = .ok out) :
    (∀ c ∈ out, c ≠ 47 ∧ c ≠ 92 ∧ c ≠ 0) ∧
    (out ≠ [] ∧ out ≠ [46] ∧ out ≠ [46, 46]) ∧
    out.length ≤ 255 ∧
    sanitizeFilename (bytes "../../../etc/passwd") = .ok (bytes "passwd") ∧
    sanitizeFilename (List.replicate 300 97 ++ bytes ".pdf") =
      .ok (List.replicate 251 97 ++ bytes ".pdf") ∧
    (∀ db1 db2 freshID dir owner n1 o1 m1 s1 n2 o2 m2 s2 r1 r2,
      createDoc db1 freshID dir owner n1 o1 m1 s1 = .ok r1 →
      createDoc db2 freshID dir owner n2 o2 m2 s2 = .ok r2 →
      r1.2.filePath = r2.2.filePath ∧ r1.2.filePath = joinPath dir (toString freshID)) := by
  have hcases := sanitizeFilename_ok_cases f out h
  refine ⟨?_, ?_, ?_, by decide, by decide, ?_⟩
  · intro c hc
    rcases hcases with ⟨hout, _⟩ | ⟨hout, _⟩
    · exact mem_scrubFilename f c (hout ▸ hc)
    · rw [hout] at hc
      rcases List.mem_append.mp hc with hc | hc
    
      · exact mem_scrubFilename f c (List.take_subset _ _ hc)
      · rcases mem_filepathExt _ _ hc with hc | hc
        · subst hc
          exact ⟨by decide, by decide, by decide⟩
        · exact mem_scrubFilename f c hc
  · rcases hcases with ⟨_, _, hne⟩ | ⟨_, hlen⟩
    · exact hne
    · refine ⟨?_, ?_, ?_⟩ <;> intro hout <;> rw [hout] at hlen <;> simp at hlen
  · rcases hcases with ⟨_, hle, _⟩ | ⟨_, hlen⟩
    · exact hle
    · omega
  · intro db1 db2 freshID dir owner n1 o1 m1 s1 n2 o2 m2 s2 r1 r2 h1 h2
    have e1 := createDoc_ok_filePath _ _ _ _ _ _ _ _ _ h1
    have e2 := createDoc_ok_filePath _ _ _ _ _ _ _ _ _ h2
    exact ⟨e1.trans e2.symm, e1⟩

theorem sanitize_and_storage_witness :
    sanitizeFilename (bytes "../../../etc/passwd") = .ok (bytes "passwd") ∧
    (∀ c ∈ bytes "report.pdf", c ≠ 47 ∧ c ≠ 92 ∧ c ≠ 0) := by
  have h := sanitize_and_storage (bytes "report.pdf") (bytes "report.pdf") (by decide)
  exact ⟨h.2.2.2.1, h.1⟩

theorem shareKey_update (d w : Nat) (p : String) (s : ShareRow) :
    shareKey (if s.documentID == d && s.sharedWithID == w
      then { s with permission := p } else s) = shareKey s := by
  split <;> rfl

theorem uniqueShareKeys_upsert (l : List ShareRow) (d b w : Nat) (p : String)
    (h : uniqueShareKeys l) : uniqueShareKeys (upsertShare l d b w p) := by
  unfold upsertShare
  split
  · unfold uniqueShareKeys at h ⊢
    rw [List.pairwise_map]
    exact h.imp (fun hac => by rw [shareKey_update, shareKey_update]; exact hac)
  · rename_i hany
    unfold uniqueShareKeys at h ⊢
    rw [List.pairwise_append]
    refine ⟨h, List.pairwise_singleton _ _, ?_⟩
    intro a ha b hb
    simp only [List.mem_singleton] at hb
    subst hb
    intro hk
    apply hany
    rw [List.any_eq_true]
    refine ⟨a, ha, ?_⟩
    have h1 : a.documentID = d := congrArg Prod.fst hk
    have h2 : a.sharedWithID = w := congrArg Prod.snd hk
    simp [h1, h2]

theorem createDoc_ok_shares (db : DB) (freshID : Nat) (dir : String) (owner : Nat)
    (n o : List Nat) (m : String) (sz : Int) (r : DB × Document)
    (h : createDoc db freshID dir owner n o m sz = .ok r) :
    r.1.shares = db.shares := by
  unfold createDoc at h
  split at h
  · cases h
  · split at h
    · cases h
    · split at h
      · cases h
      · cases h
        rfl

theorem deleteDoc_ok_shares (db : DB) (now id userID : Nat) (f : String → Bool) (db' : DB)
    (h : deleteDoc db now id userID f = .ok db') : db'.shares = db.shares := by
  unfold deleteDoc at h
  split at h
  · cases h
  · split at h
    · cases h
    · cases h
      rfl

theorem renameDoc_ok_shares (db : DB) (now id userID : Nat) (n : List Nat) (db' : DB)
    (h : renameDoc db now id userID n = .ok db') : db'.shares = db.shares := by
  unfold renameDoc at h
  split at h
  · cases h
  · split at h
    · cases h
    · cases h
      rfl

theorem removeShare_ok_shares (db : DB) (d o w : Nat) (db' : DB)
    (h : removeShare db d o w = .ok db') :
    db'.shares = db.shares.filter (fun s =>
      !(s.documentID == d && s.sharedWithID == w)) := by
  unfold removeShare at h
  split at h
  · cases h
  · split at h
    · cases h
    · split at h
      · cases h
      · cases h
        rfl

theorem shareDoc_ok_users (db : DB) (d o : Nat) (e p : String) (db' : DB)
    (h : shareDoc db d o e p = .ok db') : db'.users = db.users := by
  unfold shareDoc at h
  split at h
  · cases h
  · split at h
    · cases h
    · split at h
      · cases h
      · cases h
        rfl

theorem shareDoc_ok_shares (db : DB) (d o : Nat) (e p : String) (db' : DB) (uid : UserRow)
    (hfind : db.users.find? (fun x => x.email == e) = some uid)
    (h : shareDoc db d o e p = .ok db') :
    db'.shares = upsertShare db.shares d o uid.id p := by
  unfold shareDoc at h
  split at h
  · cases h
  · split at h
    · cases h
    · simp only [hfind] at h
      cases h
      rfl

theorem shareDoc_ok_shares_ex (db : DB) (d o : Nat) (e p : String) (db' : DB)
    (h : shareDoc db d o e p = .ok db') :
    ∃ w, db'.shares = upsertShare db.shares d o w p := by
  unfold shareDoc at h
  split at h
  · cases h
  · split at h
    · cases h
    · split at h
      · cases h
      · rename_i u _
        cases h
        exact ⟨u.id, rfl⟩

theorem reach_unique (db : DB) (h : Reach db) : uniqueShareKeys db.shares := by
  induction h with
  | init => exact List.Pairwise.nil
  | registerUser db u hr ih => exact ih
  | create db db' freshID dir owner n o m sz doc hr heq ih =>
    have hs := createDoc_ok_shares db freshID dir owner n o m sz (db', doc) heq
    rw [show db'.shares = db.shares from hs]
    exact ih
  | share db db' d o e p hr heq ih =>
    obtain ⟨w, hs⟩ := shareDoc_ok_shares_ex db d o e p db' heq
    rw [hs]
    exact uniqueShareKeys_upsert db.shares d o w p ih
  | unshare db db' d o w hr heq ih =>
    rw [removeShare_ok_shares db d o w db' heq]
    exact List.Pairwise.sublist (List.filter_sublist _) ih
  | del db db' now id userID f hr heq ih =>
    rw [deleteDoc_ok_shares db now id userID f db' heq]
    exact ih
  | ren db db' now id userID n hr heq ih =>
    rw [renameDoc_ok_shares db now id userID n db' heq]
    exact ih

theorem filter_key_length_le_one (l : List ShareRow) (d w : Nat)
    (hu : uniqueShareKeys l) :
    (l.filter (fun s => s.documentID == d && s.sharedWithID == w)).length ≤ 1 := by
  induction l with
  | nil => simp
  | cons a t ih =>
    rcases List.pairwise_cons.mp hu with ⟨hat, ht⟩
    by_cases hpa : (a.documentID == d && a.sharedWithID == w) = true
    · rw [List.filter_cons, if_pos hpa]
      have htz : t.filter (fun s => s.documentID == d && s.sharedWithID == w) = [] := by
        apply List.filter_eq_nil_iff.mpr
        intro s hs
        have hne := hat s hs
        simp only [Bool.and_eq_true, beq_iff_eq] at hpa
        simp only [Bool.and_eq_true, beq_iff_eq, not_and]
        intro hc1 hc2
        apply hne
        simp [shareKey, hpa.1, hpa.2, hc1, hc2]
      simp [htz]
    · rw [List.filter_cons, if_neg hpa]
      exact ih ht

theorem filter_key_length_ne_zero (l : List ShareRow) (d w : Nat)
    (hany : l.any (fun s => s.documentID == d && s.sharedWithID == w) = true) :
    (l.filter (fun s => s.documentID == d && s.sharedWithID == w)).length ≠ 0 := by
  rw [List.any_eq_true] at hany
  obtain ⟨s, hs, hps⟩ := hany
  intro hlen
  exact List.filter_eq_nil_iff.mp (List.length_eq_zero.mp hlen) s hs hps

theorem upsertShare_any (l : List ShareRow) (d b w : Nat) (p : String) :
    (upsertShare l d b w p).any (fun s =>
      s.documentID == d && s.sharedWithID == w) = true := by
  unfold upsertShare
  split
  · rename_i hany
    rw [List.any_eq_true] at hany ⊢
    obtain ⟨s, hs, hps⟩ := hany
    refine ⟨_, List.mem_map_of_mem _ hs, ?_⟩
    rw [if_pos hps]
    exact hps
  · rw [List.any_eq_true]
    refine ⟨ShareRow.mk d b w p none, ?_, by simp⟩
    exact List.mem_append_right _ (List.mem_singleton_self _)

theorem sharePred_update (d w : Nat) (p : String) (a : ShareRow) :
    ((if a.documentID == d && a.sharedWithID == w
      then { a with permission := p } else a).documentID == d &&
     (if a.documentID == d && a.sharedWithID == w
      then { a with permission := p } else a).sharedWithID == w) =
    (a.documentID == d && a.sharedWithID == w) := by
  split <;> rfl

theorem upsert_map_filter_count (l : List ShareRow) (d w : Nat) (p : String) :
    ((l.map (fun s => if s.documentID == d && s.sharedWithID == w
      then { s with permission := p } else s)).filter (fun s =>
      s.documentID == d && s.sharedWithID == w)).length =
    (l.filter (fun s => s.documentID == d && s.sharedWithID == w)).length := by
  induction l with
  | nil => rfl
  | cons a t ih =>
    simp only [List.map_cons, List.filter_cons, sharePred_update]
    by_cases hc : (a.documentID == d && a.sharedWithID == w) = true
    · simp [hc] at ih ⊢
      omega
    · simp [hc] at ih ⊢
      omega

theorem upsert_map_perm (l : List ShareRow) (d w : Nat) (p : String) :
    ∀ s ∈ l.map (fun s => if s.documentID == d && s.sharedWithID == w
      then { s with permission := p } else s),
      s.documentID = d → s.sharedWithID = w → s.permission = p := by
  intro s hs hd hw
  simp only [List.mem_map] at hs
  obtain ⟨y, hy, hyx⟩ := hs
  by_cases hpy : (y.documentID == d && y.sharedWithID == w) = true
  · rw [← hyx, if_pos hpy]
  · rw [← hyx, if_neg hpy] at hd hw
    simp only [Bool.and_eq_true, beq_iff_eq, not_and] at hpy
    exact absurd hw (hpy hd)

/-- C3: in every store reachable through the operations from the empty one,
at most one share row exists per (document, recipient) pair; and sharing a
document with the same recipient twice — first at permission `p1`, then at
`p2` — leaves exactly one row for the pair, carrying `p2`: the upsert
overwrites the permission in place instead of inserting a duplicate. -/

theorem share_pair_unique (db : DB) (h : Reach db) :
    uniqueShareKeys db.shares ∧
    (∀ d o e p1 p2 db1 db2 uid,
      db.users.find? (fun x => x.email == e) = some uid →
      shareDoc db d o e p1 = .ok db1 →
      shareDoc db1 d o e p2 = .ok db2 →
      (db2.shares.filter (fun s =>
        s.documentID == d && s.sharedWithID == uid.id)).length = 1 ∧
      ∀ s ∈ db2.shares, s.documentID = d → s.sharedWithID = uid.id →
        s.permission = p2) := by
  have hu := reach_unique db h
  refine ⟨hu, ?_⟩
  intro d o e p1 p2 db1 db2 uid hfind h1 h2
  have hs1 : db1.shares = upsertShare db.shares d o uid.id p1 :=
    shareDoc_ok_shares db d o e p1 db1 uid hfind h1
  have husers : db1.users = db.users := shareDoc_ok_users db d o e p1 db1 h1
  have hfind1 : db1.users.find? (fun x => x.email == e) = some uid := by
    rw [husers]
    exact hfind
  have hs2 : db2.shares = upsertShare db1.shares d o uid.id p2 :=
    shareDoc_ok_shares db1 d o e p2 db2 uid hfind1 h2
  have hany : db1.shares.any (fun s =>
      s.documentID == d && s.sharedWithID == uid.id) = true := by
    rw [hs1]
    exact upsertShare_any db.shares d o uid.id p1
  have hs2m : db2.shares = db1.shares.map (fun s =>
      if s.documentID == d && s.sharedWithID == uid.id
      then { s with permission := p2 } else s) := by
    rw [hs2]
    unfold upsertShare
    rw [if_pos hany]
  have hu1 : uniqueShareKeys db1.shares := by
    rw [hs1]
    exact uniqueShareKeys_upsert db.shares d o uid.id p1 hu
  constructor
  · rw [hs2m, upsert_map_filter_count]
    have hle := filter_key_length_le_one db1.shares d uid.id hu1
    have hne := filter_key_length_ne_zero db1.shares d uid.id hany
    omega
  · rw [hs2m]
    exact upsert_map_perm db1.shares d uid.id p2

theorem reach_dbExNoShares : Reach dbExNoShares := by
  apply Reach.create dbU2 dbExNoShares 10 "uploads" 1 (bytes "report")
    (bytes "report.pdf") "application/pdf" 4 docA
  · exact Reach.registerUser _ bobRow (Reach.registerUser _ aliceRow Reach.init)
  · decide

theorem share_pair_unique_witness :
    (dbReshared.shares.filter (fun s =>
      s.documentID == 10 && s.sharedWithID == 2)).length = 1 ∧
    ∀ s ∈ dbReshared.shares, s.documentID = 10 → s.sharedWithID = 2 →
      s.permission = "edit" := by
  have h := share_pair_unique dbExNoShares reach_dbExNoShares
  exact h.2 10 1 "bob@example.com" "view" "edit" dbEx dbReshared bobRow
    (by decide) (by decide) (by decide)
